import Mathlib

/-!
Verification of the `imap-cleanup` program (`src/main.rs`).

The development shallowly embeds the two components of the program:

* the range compressor `ranges` (main.rs lines 94-111), built on
  `itertools::group_by` over a stateful key closure; message identifiers
  (`u32` in the source) are modelled as `Nat`, with the one place where
  `u32` overflow could matter (`previous + 1`) analysed explicitly
  against the bound `2 ^ 32`;
* the cleanup workflow `cleanup_emails` (main.rs lines 52-92), with the
  IMAP session modelled as a record of response functions and the
  commands issued (plus the lines printed) recorded as an event trace.
-/

namespace ImapCleanup

/-! ### The range compressor (main.rs, `ranges`) -/

/-- The key closure passed to `group_by` in `ranges`, unrolled over the
input list.  `previous` and `start` are the two captured mutable
variables (both start as `None`).  For each element `x` the closure
updates `start` exactly as the Rust `match` does and yields the key
(the updated `start`) paired with the element. -/
def rangeKeys (previous start : Option Nat) : List Nat → List (Option Nat × Nat)
  | [] => []
  | x :: xs =>
    let start' : Option Nat :=
      match previous with
      | some p => if x ≠ p + 1 then some x else start
      | none => some x
    (start', x) :: rangeKeys (some x) start' xs

/-- Semantics of `itertools::group_by`: split a keyed list into maximal
runs of consecutive elements having equal keys, keeping the common key
of each run. -/
def groupPairs : List (Option Nat × Nat) → List (Option Nat × List Nat)
  | [] => []
  | (k, x) :: rest =>
    match groupPairs rest with
    | [] => [(k, [x])]
    | (k', g) :: gs =>
      if k = k' then (k, x :: g) :: gs else (k, [x]) :: (k', g) :: gs

/-- The final `map` of `ranges`: each group `(start, group)` becomes the
inclusive range `start.unwrap()..=group.last().unwrap()`.  The two
`unwrap`s are modelled with default values; the no-panic theorem for the
implicit-safety claim shows the key is always `some` and the group is
always non-empty, so the defaults are never consulted. -/
def mapRanges (gs : List (Option Nat × List Nat)) : List (Nat × Nat) :=
  gs.map fun kg => (kg.1.getD 0, kg.2.getLastD 0)

/-- The function `ranges` (main.rs lines 94-111): compress a list of identifiers into
inclusive ranges, modelled as pairs `(start, end)`. -/
def ranges (uids : List Nat) : List (Nat × Nat) :=
  mapRanges (groupPairs (rangeKeys none none uids))

/-! #### A structural recursion computing the same ranges

`rangesLoop s p t` processes the remaining input `t` given that the
current group has key `some s` and the previously seen element is `p`.
A new element `x` continues the current group when `x = p + 1` (the
closure keeps `start`) and also when `x = s` (the closure resets
`start` to `some x`, but the key `some x = some s` is unchanged, so
`group_by` keeps extending the same group); otherwise the current group
is closed as the range `(s, p)` and a new group starts at `x`. -/
def rangesLoop (s p : Nat) : List Nat → List (Nat × Nat)
  | [] => [(s, p)]
  | x :: xs =>
    if x = p + 1 then rangesLoop s x xs
    else if x = s then rangesLoop s x xs
    else (s, p) :: rangesLoop x x xs

/-- Entry point of the structural recursion. -/
def rangesRec : List Nat → List (Nat × Nat)
  | [] => []
  | x :: xs => rangesLoop x x xs

/-- Value `v` is covered by one of the ranges in `rs`. -/
def covered (rs : List (Nat × Nat)) (v : Nat) : Prop :=
  ∃ r ∈ rs, r.1 ≤ v ∧ v ≤ r.2

instance (rs : List (Nat × Nat)) (v : Nat) : Decidable (covered rs v) := by
  unfold covered; infer_instance

/-! ### Equivalence of `ranges` with the structural recursion -/

theorem getLastD_irrel {l : List Nat} (h : l ≠ []) (a b : Nat) :
    l.getLastD a = l.getLastD b := by
  cases l with
  | nil => exact absurd rfl h
  | cons x xs => rfl

theorem groupPairs_ne_nil {L : List (Option Nat × Nat)}
    {kg : Option Nat × List Nat} (h : kg ∈ groupPairs L) : kg.2 ≠ [] := by
  induction L generalizing kg with
  | nil => simp [groupPairs] at h
  | cons hd rest ih =>
    obtain ⟨k, x⟩ := hd
    rw [groupPairs] at h
    rcases hgp : groupPairs rest with _ | ⟨⟨k', g⟩, gs⟩
    · rw [hgp] at h
      simp only [List.mem_singleton] at h
      subst h
      simp
    · rw [hgp] at h
      dsimp only at h
      by_cases hk : k = k'
      · rw [if_pos hk] at h
        rcases List.mem_cons.1 h with h | h
        · subst h; simp
        · exact ih (hgp ▸ List.mem_cons_of_mem _ h)
      · rw [if_neg hk] at h
        rcases List.mem_cons.1 h with h | h
        · subst h; simp
        · exact ih (hgp ▸ h)

/-- Closing off an open group with key `some s` and last element `p`
against an already-grouped remainder. -/
def finishGroups (s p : Nat) : List (Option Nat × List Nat) → List (Nat × Nat)
  | [] => [(s, p)]
  | (k, g) :: gs =>
    if k = some s then (s, g.getLastD 0) :: mapRanges gs
    else (s, p) :: mapRanges ((k, g) :: gs)

theorem finishGroups_key_eq (s p x : Nat) (K : List (Option Nat × Nat)) :
    finishGroups s p (groupPairs ((some s, x) :: K)) =
      finishGroups s x (groupPairs K) := by
  rw [groupPairs]
  rcases hgp : groupPairs K with _ | ⟨⟨k', g⟩, gs⟩
  · dsimp only
    rw [finishGroups, finishGroups, if_pos rfl, List.getLastD_cons,
      List.getLastD_nil]
    rfl
  · have hg : g ≠ [] := by
      have hm : ((k', g) : Option Nat × List Nat) ∈ groupPairs K := by
        rw [hgp]; exact List.mem_cons_self _ _
      exact groupPairs_ne_nil hm
    dsimp only
    by_cases hk : (some s : Option Nat) = k'
    · subst hk
      rw [if_pos rfl, finishGroups, if_pos rfl, finishGroups, if_pos rfl,
        List.getLastD_cons, getLastD_irrel hg x 0]
    · rw [if_neg hk, finishGroups, if_pos rfl, List.getLastD_cons,
        List.getLastD_nil, finishGroups, if_neg fun hh => hk hh.symm]

theorem mapRanges_groupPairs_cons (x : Nat) (K : List (Option Nat × Nat)) :
    mapRanges (groupPairs ((some x, x) :: K)) =
      finishGroups x x (groupPairs K) := by
  rw [groupPairs]
  rcases hgp : groupPairs K with _ | ⟨⟨k', g⟩, gs⟩
  · dsimp only
    rw [finishGroups]
    show mapRanges [(some x, [x])] = [(x, x)]
    rw [mapRanges, List.map_cons, List.map_nil]
    rw [List.getLastD_cons, List.getLastD_nil]
    rfl
  · have hg : g ≠ [] := by
      have hm : ((k', g) : Option Nat × List Nat) ∈ groupPairs K := by
        rw [hgp]; exact List.mem_cons_self _ _
      exact groupPairs_ne_nil hm
    dsimp only
    by_cases hk : (some x : Option Nat) = k'
    · subst hk
      rw [if_pos rfl, finishGroups, if_pos rfl, mapRanges, List.map_cons]
      rw [List.getLastD_cons, getLastD_irrel hg x 0]
      rfl
    · rw [if_neg hk, finishGroups, if_neg fun hh => hk hh.symm, mapRanges,
        List.map_cons, List.getLastD_cons, List.getLastD_nil]
      rfl

theorem finishGroups_key_ne (s p x : Nat) (K : List (Option Nat × Nat))
    (hxs : x ≠ s) :
    finishGroups s p (groupPairs ((some x, x) :: K)) =
      (s, p) :: mapRanges (groupPairs ((some x, x) :: K)) := by
  have hks : (some x : Option Nat) ≠ some s := by
    simp [hxs]
  rw [groupPairs]
  rcases hgp : groupPairs K with _ | ⟨⟨k', g⟩, gs⟩
  · dsimp only
    rw [finishGroups, if_neg hks]
  · dsimp only
    by_cases hk : (some x : Option Nat) = k'
    · subst hk
      rw [if_pos rfl, finishGroups, if_neg hks]
    · rw [if_neg hk, finishGroups, if_neg hks]

theorem finishGroups_rangeKeys (t : List Nat) :
    ∀ p s, finishGroups s p (groupPairs (rangeKeys (some p) (some s) t)) =
      rangesLoop s p t := by
  induction t with
  | nil => intro p s; rw [rangeKeys, groupPairs, finishGroups, rangesLoop]
  | cons x xs ih =>
    intro p s
    rw [rangeKeys]
    by_cases hx : x = p + 1
    · rw [if_neg (not_not_intro hx)]
      rw [finishGroups_key_eq, ih x s, rangesLoop, if_pos hx]
    · rw [if_pos hx]
      by_cases hxs : x = s
      · subst hxs
        rw [finishGroups_key_eq, ih x x, rangesLoop, if_neg hx, if_pos rfl]
      · rw [finishGroups_key_ne s p x _ hxs, mapRanges_groupPairs_cons, ih x x,
          rangesLoop, if_neg hx, if_neg hxs]

/-- The `group_by` pipeline of `ranges` computes the same list of ranges
as the structural recursion `rangesRec`, on every input. -/
theorem ranges_eq_rangesRec (l : List Nat) : ranges l = rangesRec l := by
  cases l with
  | nil => rfl
  | cons x xs =>
    show mapRanges (groupPairs (rangeKeys none none (x :: xs))) = rangesLoop x x xs
    rw [rangeKeys]
    show mapRanges (groupPairs ((some x, x) :: rangeKeys (some x) (some x) xs)) = _
    rw [mapRanges_groupPairs_cons, finishGroups_rangeKeys]

/-! ### Properties of the compressed ranges -/

theorem covered_cons {r : Nat × Nat} {rs : List (Nat × Nat)} {v : Nat} :
    covered (r :: rs) v ↔ (r.1 ≤ v ∧ v ≤ r.2) ∨ covered rs v := by
  simp [covered]

theorem rangesLoop_covered (t : List Nat) :
    ∀ p s, List.Chain' (· ≤ ·) (p :: t) → s ≤ p →
      ∀ v, covered (rangesLoop s p t) v ↔ (s ≤ v ∧ v ≤ p) ∨ v ∈ t := by
  induction t with
  | nil =>
    intro p s _ _ v
    simp [rangesLoop, covered]
  | cons x xs ih =>
    intro p s hch hsp v
    have hpx : p ≤ x := (List.chain'_cons.1 hch).1
    have hch' : List.Chain' (· ≤ ·) (x :: xs) := (List.chain'_cons.1 hch).2
    rw [rangesLoop, List.mem_cons]
    by_cases hx : x = p + 1
    · rw [if_pos hx, ih x s hch' (le_trans hsp hpx) v]
      constructor
      · rintro (⟨h1, h2⟩ | hA)
        · rcases Nat.eq_or_lt_of_le h2 with he | hlt
          · exact Or.inr (Or.inl (by omega))
          · exact Or.inl ⟨h1, by omega⟩
        · exact Or.inr (Or.inr hA)
      · rintro (⟨h1, h2⟩ | he | hA)
        · exact Or.inl ⟨h1, by omega⟩
        · exact Or.inl ⟨by omega, by omega⟩
        · exact Or.inr hA
    · rw [if_neg hx]
      by_cases hxs : x = s
      · rw [if_pos hxs, ih x s hch' (by omega) v]
        constructor
        · rintro (⟨h1, h2⟩ | hA)
          · exact Or.inl ⟨h1, by omega⟩
          · exact Or.inr (Or.inr hA)
        · rintro (⟨h1, h2⟩ | he | hA)
          · exact Or.inl ⟨h1, by omega⟩
          · exact Or.inl ⟨by omega, by omega⟩
          · exact Or.inr hA
      · rw [if_neg hxs, covered_cons, ih x x hch' (le_refl x) v]
        constructor
        · rintro (⟨h1, h2⟩ | ⟨h1, h2⟩ | hA)
          · exact Or.inl ⟨h1, h2⟩
          · exact Or.inr (Or.inl (by omega))
          · exact Or.inr (Or.inr hA)
        · rintro (⟨h1, h2⟩ | he | hA)
          · exact Or.inl ⟨h1, h2⟩
          · exact Or.inr (Or.inl ⟨by omega, by omega⟩)
          · exact Or.inr (Or.inr hA)

theorem rangesLoop_bounds (t : List Nat) :
    ∀ p s, List.Chain' (· ≤ ·) (p :: t) → s ≤ p →
      ∀ r ∈ rangesLoop s p t, s ≤ r.1 ∧ r.1 ≤ r.2 := by
  induction t with
  | nil =>
    intro p s _ hsp r hr
    simp only [rangesLoop, List.mem_singleton] at hr
    subst hr
    exact ⟨le_refl s, hsp⟩
  | cons x xs ih =>
    intro p s hch hsp r hr
    have hpx : p ≤ x := (List.chain'_cons.1 hch).1
    have hch' : List.Chain' (· ≤ ·) (x :: xs) := (List.chain'_cons.1 hch).2
    rw [rangesLoop] at hr
    by_cases hx : x = p + 1
    · rw [if_pos hx] at hr
      exact ih x s hch' (le_trans hsp hpx) r hr
    · rw [if_neg hx] at hr
      by_cases hxs : x = s
      · rw [if_pos hxs] at hr
        exact ih x s hch' (by omega) r hr
      · rw [if_neg hxs] at hr
        rcases List.mem_cons.1 hr with h | h
        · subst h
          exact ⟨le_refl s, hsp⟩
        · have hb := ih x x hch' (le_refl x) r h
          exact ⟨le_trans (le_trans hsp hpx) hb.1, hb.2⟩

theorem rangesLoop_head (t : List Nat) :
    ∀ p s, ∃ e, (rangesLoop s p t).head? = some (s, e) := by
  induction t with
  | nil => intro p s; exact ⟨p, rfl⟩
  | cons x xs ih =>
    intro p s
    rw [rangesLoop]
    by_cases hx : x = p + 1
    · rw [if_pos hx]; exact ih x s
    · rw [if_neg hx]
      by_cases hxs : x = s
      · rw [if_pos hxs]; exact ih x s
      · rw [if_neg hxs]; exact ⟨p, rfl⟩

theorem rangesLoop_chain (t : List Nat) :
    ∀ p s, List.Chain' (· < ·) (p :: t) → s ≤ p →
      List.Chain' (fun a b => a.2 + 1 < b.1) (rangesLoop s p t) := by
  induction t with
  | nil => intro p s _ _; exact List.chain'_singleton _
  | cons x xs ih =>
    intro p s hch hsp
    have hpx : p < x := (List.chain'_cons.1 hch).1
    have hch' : List.Chain' (· < ·) (x :: xs) := (List.chain'_cons.1 hch).2
    rw [rangesLoop]
    by_cases hx : x = p + 1
    · rw [if_pos hx]; exact ih x s hch' (by omega)
    · have hxs : x ≠ s := by omega
      rw [if_neg hx, if_neg hxs, List.chain'_cons']
      refine ⟨?_, ih x x hch' (le_refl x)⟩
      intro y hy
      obtain ⟨e, he⟩ := rangesLoop_head xs x x
      rw [he, Option.mem_def, Option.some_inj] at hy
      subst hy
      show p + 1 < x
      omega

theorem rangesLoop_sum (t : List Nat) :
    ∀ p s, List.Chain' (· < ·) (p :: t) → s ≤ p →
      ((rangesLoop s p t).map (fun r => r.2 + 1 - r.1)).sum =
        (p + 1 - s) + t.length := by
  induction t with
  | nil => intro p s _ _; simp [rangesLoop]
  | cons x xs ih =>
    intro p s hch hsp
    have hpx : p < x := (List.chain'_cons.1 hch).1
    have hch' : List.Chain' (· < ·) (x :: xs) := (List.chain'_cons.1 hch).2
    rw [rangesLoop]
    by_cases hx : x = p + 1
    · rw [if_pos hx, ih x s hch' (by omega)]
      rw [List.length_cons]
      omega
    · have hxs : x ≠ s := by omega
      rw [if_neg hx, if_neg hxs, List.map_cons, List.sum_cons,
        ih x x hch' (le_refl x), List.length_cons]
      omega

/-! ### Top-level properties of `ranges` -/

theorem ranges_covered_iff {l : List Nat} (hs : List.Chain' (· ≤ ·) l) :
    ∀ v, covered (ranges l) v ↔ v ∈ l := by
  rw [ranges_eq_rangesRec]
  cases l with
  | nil => intro v; simp [rangesRec, covered]
  | cons x xs =>
    intro v
    rw [rangesRec, rangesLoop_covered xs x x hs (le_refl x) v, List.mem_cons]
    constructor
    · rintro (⟨h1, h2⟩ | h)
      · exact Or.inl (by omega)
      · exact Or.inr h
    · rintro (h | h)
      · subst h; exact Or.inl ⟨le_refl v, le_refl v⟩
      · exact Or.inr h

theorem ranges_bounds {l : List Nat} (hs : List.Chain' (· ≤ ·) l) :
    ∀ r ∈ ranges l, r.1 ≤ r.2 := by
  rw [ranges_eq_rangesRec]
  cases l with
  | nil => intro r hr; simp [rangesRec] at hr
  | cons x xs =>
    intro r hr
    exact (rangesLoop_bounds xs x x hs (le_refl x) r hr).2

theorem ranges_chain {l : List Nat} (hs : List.Chain' (· < ·) l) :
    List.Chain' (fun a b => a.2 + 1 < b.1) (ranges l) := by
  rw [ranges_eq_rangesRec]
  cases l with
  | nil => exact List.chain'_nil
  | cons x xs => exact rangesLoop_chain xs x x hs (le_refl x)

theorem chain_to_pairwise {rs : List (Nat × Nat)}
    (hle : ∀ r ∈ rs, r.1 ≤ r.2)
    (hch : List.Chain' (fun a b => a.2 + 1 < b.1) rs) :
    List.Pairwise (fun a b => a.2 + 1 < b.1) rs := by
  induction rs with
  | nil => exact List.Pairwise.nil
  | cons a l ih =>
    have hhd := (List.chain'_cons'.1 hch).1
    have hch' := (List.chain'_cons'.1 hch).2
    have hpl := ih (fun r hr => hle r (List.mem_cons_of_mem _ hr)) hch'
    refine List.pairwise_cons.2 ⟨?_, hpl⟩
    intro b hb
    cases l with
    | nil => simp at hb
    | cons c m =>
      have hac : a.2 + 1 < c.1 := hhd c rfl
      rcases List.mem_cons.1 hb with h | h
      · subst h; exact hac
      · have hcb : c.2 + 1 < b.1 := (List.pairwise_cons.1 hpl).1 b h
        have hc : c.1 ≤ c.2 :=
          hle c (List.mem_cons_of_mem _ (List.mem_cons_self _ _))
        omega

theorem ranges_pairwise {l : List Nat} (hs : List.Chain' (· < ·) l) :
    List.Pairwise (fun a b => a.2 + 1 < b.1) (ranges l) :=
  chain_to_pairwise (ranges_bounds (hs.imp fun _ _ h => le_of_lt h)) (ranges_chain hs)

theorem ranges_sum {l : List Nat} (hs : List.Chain' (· < ·) l) :
    ((ranges l).map (fun r => r.2 + 1 - r.1)).sum = l.length := by
  rw [ranges_eq_rangesRec]
  cases l with
  | nil => rfl
  | cons x xs =>
    rw [rangesRec, rangesLoop_sum xs x x hs (le_refl x), List.length_cons]
    omega

theorem pairwise_rel_of_mem {α : Type} {R : α → α → Prop} {rs : List α}
    (h : List.Pairwise R rs) {a b : α} (ha : a ∈ rs) (hb : b ∈ rs)
    (hne : a ≠ b) : R a b ∨ R b a := by
  induction rs with
  | nil => simp at ha
  | cons c m ih =>
    rcases List.mem_cons.1 ha with rfl | ha'
    · rcases List.mem_cons.1 hb with rfl | hb'
      · exact absurd rfl hne
      · exact Or.inl ((List.pairwise_cons.1 h).1 b hb')
    · rcases List.mem_cons.1 hb with rfl | hb'
      · exact Or.inr ((List.pairwise_cons.1 h).1 a ha')
      · exact ih (List.pairwise_cons.1 h).2 ha' hb'

/-- Any family of ranges that is a disjoint, gap-separated exact cover of
the values of `l` has the minimum possible length among all families of
inclusive ranges whose covered values are exactly the values of `l`. -/
theorem minimal_cover {l : List Nat} {rs : List (Nat × Nat)}
    (hcov : ∀ v, covered rs v ↔ v ∈ l)
    (hle : ∀ r ∈ rs, r.1 ≤ r.2)
    (hpw : List.Pairwise (fun a b => a.2 + 1 < b.1) rs) :
    ∀ L : List (Nat × Nat), (∀ v, covered L v ↔ v ∈ l) → rs.length ≤ L.length := by
  intro L hL
  have hstartlt : List.Pairwise (· < ·) (rs.map Prod.fst) := by
    rw [List.pairwise_map]
    exact hpw.imp_of_mem fun {a b} ha _ hab => by
      have := hle a ha
      omega
  -- every start is a value of `l` whose predecessor is not a value of `l`
  have hstart_mem : ∀ a ∈ rs.map Prod.fst, a ∈ l := by
    intro a ha
    obtain ⟨r, hr, hra⟩ := List.mem_map.1 ha
    exact (hcov a).1 ⟨r, hr, le_of_eq hra, hra ▸ hle r hr⟩
  have hstart_pred : ∀ a ∈ rs.map Prod.fst, 1 ≤ a → (a - 1) ∉ l := by
    intro a ha h1 hmem
    obtain ⟨r, hr, hra⟩ := List.mem_map.1 ha
    obtain ⟨r', hr', h1', h2'⟩ := (hcov (a - 1)).2 hmem
    have hner : r' ≠ r := by
      intro he
      subst he
      omega
    rcases pairwise_rel_of_mem hpw hr hr' (fun he => hner he.symm) with hR | hR
    · have := hle r hr
      omega
    · omega
  -- map each start to the first range of `L` covering it
  have hcovL : ∀ a ∈ rs.map Prod.fst, ∃ q ∈ L, (q.1 ≤ a ∧ a ≤ q.2) := by
    intro a ha
    exact (hL a).2 (hstart_mem a ha)
  set f : Nat → Nat :=
    fun v => L.findIdx (fun q => decide (q.1 ≤ v ∧ v ≤ q.2)) with hf
  have hflt : ∀ a ∈ rs.map Prod.fst, f a < L.length := by
    intro a ha
    obtain ⟨q, hq, hq1, hq2⟩ := hcovL a ha
    exact List.findIdx_lt_length_of_exists ⟨q, hq, decide_eq_true ⟨hq1, hq2⟩⟩
  have hfcov : ∀ (a : Nat), ∀ (h : f a < L.length),
      (L.get ⟨f a, h⟩).1 ≤ a ∧ a ≤ (L.get ⟨f a, h⟩).2 := by
    intro a h
    simp only [hf] at h ⊢
    have h2 := List.findIdx_getElem
      (p := fun (q : Nat × Nat) => decide (q.1 ≤ a ∧ a ≤ q.2)) (w := h)
    rw [List.get_eq_getElem]
    exact of_decide_eq_true h2
  -- `f` is injective on the starts
  have hinj : ∀ a ∈ rs.map Prod.fst, ∀ b ∈ rs.map Prod.fst,
      f a = f b → a = b := by
    intro a ha b hb hfe
    by_contra hne
    -- w.l.o.g. `a < b`; the range covering both also covers `b - 1`
    have key : ∀ a b, a ∈ rs.map Prod.fst → b ∈ rs.map Prod.fst →
        f a = f b → a < b → False := by
      intro a b ha hb hfe hab
      have hlt := hflt a ha
      obtain ⟨hq1, hq2⟩ := hfcov a hlt
      have hltb := hflt b hb
      obtain ⟨hqb1, hqb2⟩ := hfcov b hltb
      have hsame : L.get ⟨f a, hlt⟩ = L.get ⟨f b, hltb⟩ := by
        congr 1
        exact Fin.ext hfe
      have hcovb1 : covered L (b - 1) := by
        refine ⟨L.get ⟨f a, hlt⟩, List.get_mem L _ hlt, ?_, ?_⟩
        · omega
        · rw [hsame]; omega
      exact hstart_pred b hb (by omega) ((hL (b - 1)).1 hcovb1)
    rcases Nat.lt_or_ge a b with h | h
    · exact key a b ha hb hfe h
    · rcases Nat.eq_or_lt_of_le h with he | h
      · exact hne he.symm
      · exact key b a hb ha hfe.symm h
  have hnodup : ((rs.map Prod.fst).map f).Nodup :=
    List.Nodup.map_on hinj (hstartlt.imp fun hab => Nat.ne_of_lt hab)
  have hsub : ((rs.map Prod.fst).map f).toFinset ⊆ Finset.range L.length := by
    intro i hi
    rw [Finset.mem_range]
    obtain ⟨a, ha, hai⟩ := List.mem_map.1 (List.mem_toFinset.1 hi)
    exact hai ▸ hflt a ha
  have hcard := Finset.card_le_card hsub
  rw [List.toFinset_card_of_nodup hnodup, Finset.card_range,
    List.length_map, List.length_map] at hcard
  exact hcard

/-! ### Keys produced by the closure are always `some`, groups never empty -/

theorem groupPairs_key_mem {L : List (Option Nat × Nat)}
    {kg : Option Nat × List Nat} (h : kg ∈ groupPairs L) :
    kg.1 ∈ L.map Prod.fst := by
  induction L generalizing kg with
  | nil => simp [groupPairs] at h
  | cons hd rest ih =>
    obtain ⟨k, x⟩ := hd
    rw [groupPairs] at h
    rcases hgp : groupPairs rest with _ | ⟨⟨k', g⟩, gs⟩
    · rw [hgp] at h
      simp only [List.mem_singleton] at h
      subst h
      simp
    · rw [hgp] at h
      dsimp only at h
      by_cases hk : k = k'
      · rw [if_pos hk] at h
        rcases List.mem_cons.1 h with h | h
        · subst h; simp
        · refine List.mem_cons_of_mem _ (ih ?_)
          rw [hgp]; exact List.mem_cons_of_mem _ h
      · rw [if_neg hk] at h
        rcases List.mem_cons.1 h with h | h
        · subst h; simp
        · refine List.mem_cons_of_mem _ (ih ?_)
          rw [hgp]; exact h

theorem rangeKeys_key_isSome (t : List Nat) :
    ∀ p s kv, kv ∈ rangeKeys (some p) (some s) t → kv.1.isSome = true := by
  induction t with
  | nil => intro p s kv h; simp [rangeKeys] at h
  | cons x xs ih =>
    intro p s kv h
    simp only [rangeKeys] at h
    by_cases hx : x ≠ p + 1
    · rw [if_pos hx] at h
      rcases List.mem_cons.1 h with h | h
      · subst h; rfl
      · exact ih x x kv h
    · rw [if_neg hx] at h
      rcases List.mem_cons.1 h with h | h
      · subst h; rfl
      · exact ih x s kv h

theorem rangeKeys_none_key_isSome (l : List Nat) :
    ∀ kv ∈ rangeKeys none none l, kv.1.isSome = true := by
  cases l with
  | nil => intro kv h; simp [rangeKeys] at h
  | cons x xs =>
    intro kv h
    simp only [rangeKeys] at h
    rcases List.mem_cons.1 h with h | h
    · subst h; rfl
    · exact rangeKeys_key_isSome xs x x kv h

/-! ### Claim theorems for the range compressor -/

/-- C1: for every sorted, strictly ascending, finite sequence of
non-negative integers, `ranges` exactly partitions the input: a value is
covered by the output iff it is in the input, no two output ranges share
a value, and every output range `(start, end)` has `start ≤ end`. -/
theorem claim1_ranges_exact_partition (l : List Nat)
    (hs : List.Pairwise (· < ·) l) :
    (∀ v, covered (ranges l) v ↔ v ∈ l) ∧
    List.Pairwise
      (fun a b => ∀ v, ¬((a.1 ≤ v ∧ v ≤ a.2) ∧ (b.1 ≤ v ∧ v ≤ b.2)))
      (ranges l) ∧
    (∀ r ∈ ranges l, r.1 ≤ r.2) := by
  have hch : List.Chain' (· < ·) l := List.chain'_iff_pairwise.2 hs
  have hle : List.Chain' (· ≤ ·) l := hch.imp fun _ _ h => le_of_lt h
  refine ⟨ranges_covered_iff hle, ?_, ranges_bounds hle⟩
  refine (ranges_pairwise hch).imp fun hab v hv => ?_
  obtain ⟨⟨h1, h2⟩, h3, h4⟩ := hv
  omega

/-- Witness for C1 at the concrete input `[1, 3]`. -/
theorem claim1_witness :
    List.Pairwise (· < ·) [1, 3] ∧
    ((∀ v, covered (ranges [1, 3]) v ↔ v ∈ [1, 3]) ∧
    List.Pairwise
      (fun a b => ∀ v, ¬((a.1 ≤ v ∧ v ≤ a.2) ∧ (b.1 ≤ v ∧ v ≤ b.2)))
      (ranges [1, 3]) ∧
    (∀ r ∈ ranges [1, 3], r.1 ≤ r.2)) :=
  ⟨by decide, claim1_ranges_exact_partition [1, 3] (by decide)⟩

/-- C2: for every sorted, strictly ascending input, the output
ranges are in strictly ascending order of start, consecutive output
ranges are separated by more than one (`end + 1 < next start`), and the
number of output ranges is minimal among all exact covers by inclusive
ranges. -/
theorem claim2_ranges_ordered_minimal (l : List Nat)
    (hs : List.Pairwise (· < ·) l) :
    List.Pairwise (fun a b => a.1 < b.1) (ranges l) ∧
    List.Chain' (fun a b => a.2 + 1 < b.1) (ranges l) ∧
    ∀ L : List (Nat × Nat), (∀ v, covered L v ↔ v ∈ l) →
      (ranges l).length ≤ L.length := by
  have hch : List.Chain' (· < ·) l := List.chain'_iff_pairwise.2 hs
  have hle : List.Chain' (· ≤ ·) l := hch.imp fun _ _ h => le_of_lt h
  refine ⟨?_, ranges_chain hch, ?_⟩
  · refine (ranges_pairwise hch).imp_of_mem fun {a b} ha _ hab => ?_
    have := ranges_bounds hle a ha
    omega
  · exact minimal_cover (ranges_covered_iff hle) (ranges_bounds hle)
      (ranges_pairwise hch)

/-- Witness for C2 at the concrete input `[1, 2, 5]`. -/
theorem claim2_witness :
    List.Pairwise (· < ·) [1, 2, 5] ∧
    (List.Pairwise (fun a b => a.1 < b.1) (ranges [1, 2, 5]) ∧
    List.Chain' (fun a b => a.2 + 1 < b.1) (ranges [1, 2, 5]) ∧
    ∀ L : List (Nat × Nat), (∀ v, covered L v ↔ v ∈ [1, 2, 5]) →
      (ranges [1, 2, 5]).length ≤ L.length) :=
  ⟨by decide, claim2_ranges_ordered_minimal [1, 2, 5] (by decide)⟩

/-- C3, counterexample: on the sorted input with duplicates
`[1, 2, 2, 3]`, `ranges` produces `[(1, 2), (2, 3)]`, whose two ranges
share the value `2`; the output is *not* non-overlapping, contrary to
the claim. -/
theorem claim3_counterexample :
    ranges [1, 2, 2, 3] = [(1, 2), (2, 3)] ∧
    ¬ List.Pairwise
        (fun a b => ∀ v, ¬((a.1 ≤ v ∧ v ≤ a.2) ∧ (b.1 ≤ v ∧ v ≤ b.2)))
        (ranges [1, 2, 2, 3]) := by
  have he : ranges [1, 2, 2, 3] = [(1, 2), (2, 3)] := by decide
  refine ⟨he, ?_⟩
  rw [he]
  intro hpw
  have h2 := (List.pairwise_cons.1 hpw).1 (2, 3) (List.mem_cons_self _ _) 2
  exact h2 ⟨⟨by decide, by decide⟩, by decide, by decide⟩

/-- C3, amended: on every sorted input, duplicates included, the
values covered by the output of `ranges` are still exactly the distinct
input values (nothing extra, nothing missing); however the output
ranges may overlap, as the counterexample `[1, 2, 2, 3]` shows. -/
theorem claim3_amended_ranges_dup_cover (l : List Nat)
    (hs : List.Pairwise (· ≤ ·) l) :
    ∀ v, covered (ranges l) v ↔ v ∈ l :=
  ranges_covered_iff (List.chain'_iff_pairwise.2 hs)

/-- Witness for the amended C3 at the concrete input `[1, 2, 2, 3]`. -/
theorem claim3_amended_witness :
    List.Pairwise (· ≤ ·) [1, 2, 2, 3] ∧
    (∀ v, covered (ranges [1, 2, 2, 3]) v ↔ v ∈ [1, 2, 2, 3]) :=
  ⟨by decide, claim3_amended_ranges_dup_cover [1, 2, 2, 3] (by decide)⟩

/-- C4: the concrete scenarios of the specification and of the
Rust unit test `test::range`. -/
theorem claim4_ranges_examples :
    ranges [] = [] ∧ (∀ v : Nat, ranges [v] = [(v, v)]) ∧
    ranges [1, 2, 3] = [(1, 3)] ∧
    ranges [1, 2, 3, 5, 7, 8, 9] = [(1, 3), (5, 5), (7, 9)] ∧
    ranges [1, 3] = [(1, 1), (3, 3)] := by
  refine ⟨rfl, ?_, by decide, by decide, by decide⟩
  intro v
  rfl

/-- C9: on strictly ascending input of `u32` values, `ranges` never
panics: every group produced by `group_by` has a `some` key (so
`start.unwrap()` succeeds) and a non-empty element list (so
`group.last().unwrap()` succeeds), and for every element with a
successor in the list — exactly the elements on which the closure
computes `previous + 1` — that sum stays below `2 ^ 32`, so the `u32`
addition cannot overflow. -/
theorem claim9_ranges_no_panic (l : List Nat)
    (hs : List.Pairwise (· < ·) l) (hw : ∀ x ∈ l, x < 2 ^ 32) :
    (∀ kg ∈ groupPairs (rangeKeys none none l),
      kg.1.isSome = true ∧ kg.2 ≠ []) ∧
    (∀ (i : Nat) (h : i + 1 < l.length),
      l.get ⟨i, by omega⟩ + 1 < 2 ^ 32) := by
  constructor
  · intro kg hkg
    refine ⟨?_, groupPairs_ne_nil hkg⟩
    have hmem := groupPairs_key_mem hkg
    obtain ⟨kv, hkv, he⟩ := List.mem_map.1 hmem
    exact he ▸ rangeKeys_none_key_isSome l kv hkv
  · intro i h
    have hch : List.Chain' (· < ·) l := List.chain'_iff_pairwise.2 hs
    have hlt := List.chain'_iff_get.1 hch i (by omega)
    have hmem : l.get ⟨i + 1, by omega⟩ ∈ l := l.get_mem _ _
    have hb := hw _ hmem
    omega

/-- Witness for C9 at the concrete input `[0, 4294967295]`, which
contains the largest `u32` value. -/
theorem claim9_witness :
    List.Pairwise (· < ·) [0, 4294967295] ∧
    (∀ x ∈ [0, 4294967295], x < 2 ^ 32) ∧
    ((∀ kg ∈ groupPairs (rangeKeys none none [0, 4294967295]),
      kg.1.isSome = true ∧ kg.2 ≠ []) ∧
    (∀ (i : Nat) (h : i + 1 < ([0, 4294967295] : List Nat).length),
      ([0, 4294967295] : List Nat).get ⟨i, by omega⟩ + 1 < 2 ^ 32)) :=
  ⟨by decide, by decide,
    claim9_ranges_no_panic [0, 4294967295] (by decide) (by decide)⟩

/-! ### The cleanup workflow (main.rs, `cleanup_emails`)

The IMAP session is modelled as a record of response functions, one per
protocol operation used by the program, parameterised by the error type
`ε` (the source's `imap::error::Error`; every error is propagated
unchanged by `?`, so it can stay abstract).  The workflow returns the
list of events it produced — the session commands it issued, in order,
and the lines it printed — together with its `Result`.  The `chrono`
formatting of the cutoff date is external to the program; the formatted
date string is taken as the `before` input. -/

/-- Metadata of one fetched message, as used by the dry-run branch:
the `INTERNALDATE` value (the source calls `.unwrap()` on it and
`Display`s it; it is modelled as the already-rendered string) and the
list of flags (rendered by the `{:?}` format). -/
structure Msg where
  internalDate : String
  flags : List String
deriving DecidableEq

/-- An observable event of the workflow: a session command or a printed
line. -/
inductive Ev where
  | select (mailbox : String)
  | search (query : String)
  | fetch (seqSet fields : String)
  | store (seqSet flags : String)
  | expunge
  | print (line : String)
deriving DecidableEq

/-- Returns `true` exactly on the state-changing session commands. -/
def Ev.isWrite : Ev → Bool
  | .store _ _ => true
  | .expunge => true
  | _ => false

/-- The abstract IMAP session: responses of the server to each command
the program can issue. -/
structure Session (ε : Type) where
  selectR : String → Except ε Unit
  searchR : String → Except ε (List Nat)
  fetchR : String → String → Except ε (List Msg)
  storeR : String → String → Except ε Unit
  expungeR : Except ε Unit

/-- The search query built by `cleanup_emails`:
`format!("BEFORE %-e-%b-%Y NOT FLAGGED")` applied to the cutoff date,
with the formatted date abstracted as the string `before`. -/
def searchQuery (before : String) : String :=
  "BEFORE " ++ before ++ " NOT FLAGGED"

/-- The sequence-set argument `format!("{}:{}", range.start(), range.end())`. -/
def seqset (r : Nat × Nat) : String :=
  toString r.1 ++ ":" ++ toString r.2

/-- The store argument `r"+FLAGS.SILENT (\Deleted)"`. -/
def delFlags : String := "+FLAGS.SILENT (\\Deleted)"

/-- The fetch argument `"(INTERNALDATE FLAGS)"`. -/
def fetchFields : String := "(INTERNALDATE FLAGS)"

/-- The preview line `println!("{} {:?}", internal_date, message.flags())`. -/
def previewLine (m : Msg) : String :=
  m.internalDate ++ " " ++ toString m.flags

/-- The final dry-run line `println!("{} not deleted (dry run).", uids.len())`. -/
def dryCountLine (n : Nat) : String :=
  toString n ++ " not deleted (dry run)."

/-- The final commit line `println!("{} deleted.", uids.len())`. -/
def commitCountLine (n : Nat) : String :=
  toString n ++ " deleted."

/-- The dry-run loop (main.rs lines 70-79): for each range, fetch the
metadata and print one preview line per message; the first fetch error
aborts the loop. -/
def dryLoop {ε : Type} (s : Session ε) : List (Nat × Nat) → List Ev × Except ε Unit
  | [] => ([], .ok ())
  | r :: rest =>
    match s.fetchR (seqset r) fetchFields with
    | .error e => ([Ev.fetch (seqset r) fetchFields], .error e)
    | .ok msgs =>
      let tail := dryLoop s rest
      (Ev.fetch (seqset r) fetchFields ::
        ((msgs.map fun m => Ev.print (previewLine m)) ++ tail.1), tail.2)

/-- The commit loop (main.rs lines 82-87): one store command per range;
the first store error aborts the loop. -/
def commitLoop {ε : Type} (s : Session ε) : List (Nat × Nat) → List Ev × Except ε Unit
  | [] => ([], .ok ())
  | r :: rest =>
    match s.storeR (seqset r) delFlags with
    | .error e => ([Ev.store (seqset r) delFlags], .error e)
    | .ok _ =>
      let tail := commitLoop s rest
      (Ev.store (seqset r) delFlags :: tail.1, tail.2)

/-- The function `cleanup_emails` (main.rs lines 52-92): select the mailbox, search,
sort the identifiers, compress them into ranges, then either preview
(dry run) or mark-and-expunge; errors propagate immediately via `?`.
The returned event list records the commands issued (and lines printed)
up to the point of return. -/
def cleanup_emails {ε : Type} (s : Session ε) (mailbox before : String)
    (dry_run : Bool) : List Ev × Except ε Unit :=
  match s.selectR mailbox with
  | .error e => ([Ev.select mailbox], .error e)
  | .ok _ =>
    match s.searchR (searchQuery before) with
    | .error e => ([Ev.select mailbox, Ev.search (searchQuery before)], .error e)
    | .ok found =>
      let uids := found.insertionSort (· ≤ ·)
      let rs := ranges uids
      let pre := [Ev.select mailbox, Ev.search (searchQuery before)]
      if dry_run then
        match dryLoop s rs with
        | (evs, .error e) => (pre ++ evs, .error e)
        | (evs, .ok _) =>
          (pre ++ evs ++ [Ev.print (dryCountLine uids.length)], .ok ())
      else
        match commitLoop s rs with
        | (evs, .error e) => (pre ++ evs, .error e)
        | (evs, .ok _) =>
          match s.expungeR with
          | .error e => (pre ++ evs ++ [Ev.expunge], .error e)
          | .ok _ =>
            (pre ++ evs ++ [Ev.expunge,
              Ev.print (commitCountLine uids.length)], .ok ())

/-! ### Behaviour of the two per-range loops -/

/-- The events of the dry-run loop over ranges whose fetches all
succeed, when range `r` fetches the messages `msf r`. -/
def previewEvents (msf : Nat × Nat → List Msg) : List (Nat × Nat) → List Ev
  | [] => []
  | r :: rest =>
    Ev.fetch (seqset r) fetchFields ::
      ((msf r).map fun m => Ev.print (previewLine m)) ++ previewEvents msf rest

theorem commitLoop_ok {ε : Type} (s : Session ε) (rs : List (Nat × Nat))
    (h : ∀ r ∈ rs, s.storeR (seqset r) delFlags = .ok ()) :
    commitLoop s rs = (rs.map fun r => Ev.store (seqset r) delFlags, .ok ()) := by
  induction rs with
  | nil => rfl
  | cons r rest ih =>
    rw [commitLoop, h r (List.mem_cons_self _ _)]
    dsimp only
    rw [ih fun q hq => h q (List.mem_cons_of_mem _ hq)]
    rfl

theorem commitLoop_error {ε : Type} (s : Session ε) (pre : List (Nat × Nat))
    (rf : Nat × Nat) (post : List (Nat × Nat)) (e : ε)
    (hpre : ∀ r ∈ pre, s.storeR (seqset r) delFlags = .ok ())
    (hrf : s.storeR (seqset rf) delFlags = .error e) :
    commitLoop s (pre ++ rf :: post) =
      ((pre.map fun r => Ev.store (seqset r) delFlags) ++
        [Ev.store (seqset rf) delFlags], .error e) := by
  induction pre with
  | nil =>
    rw [List.nil_append, commitLoop, hrf]
    rfl
  | cons r rest ih =>
    rw [List.cons_append, commitLoop, hpre r (List.mem_cons_self _ _)]
    dsimp only
    rw [ih fun q hq => hpre q (List.mem_cons_of_mem _ hq)]
    rfl

theorem dryLoop_error {ε : Type} (s : Session ε) (msf : Nat × Nat → List Msg)
    (pre : List (Nat × Nat)) (rf : Nat × Nat) (post : List (Nat × Nat)) (e : ε)
    (hpre : ∀ r ∈ pre, s.fetchR (seqset r) fetchFields = .ok (msf r))
    (hrf : s.fetchR (seqset rf) fetchFields = .error e) :
    dryLoop s (pre ++ rf :: post) =
      (previewEvents msf pre ++ [Ev.fetch (seqset rf) fetchFields],
        .error e) := by
  induction pre with
  | nil =>
    rw [List.nil_append, dryLoop, hrf]
    rfl
  | cons r rest ih =>
    rw [List.cons_append, dryLoop, hpre r (List.mem_cons_self _ _)]
    dsimp only
    rw [ih fun q hq => hpre q (List.mem_cons_of_mem _ hq)]
    simp [previewEvents]

theorem dryLoop_no_write {ε : Type} (s : Session ε) (rs : List (Nat × Nat)) :
    ∀ ev ∈ (dryLoop s rs).1, ev.isWrite = false := by
  induction rs with
  | nil => intro ev h; simp [dryLoop] at h
  | cons r rest ih =>
    intro ev h
    rw [dryLoop] at h
    rcases hf : s.fetchR (seqset r) fetchFields with e | msgs
    · rw [hf] at h
      dsimp only at h
      rw [List.mem_singleton] at h
      subst h; rfl
    · rw [hf] at h
      dsimp only at h
      rcases List.mem_cons.1 h with h | h
      · subst h; rfl
      · rcases List.mem_append.1 h with h | h
        · obtain ⟨m, _, hm⟩ := List.mem_map.1 h
          subst hm; rfl
        · exact ih ev h

/-- In dry-run mode the workflow never produces a write event, whatever
the session answers. -/
theorem cleanup_dry_no_write {ε : Type} (s : Session ε) (mb b : String) :
    ∀ ev ∈ (cleanup_emails s mb b true).1, ev.isWrite = false := by
  intro ev h
  rw [cleanup_emails] at h
  rcases hsel : s.selectR mb with e | u
  · rw [hsel] at h
    dsimp only at h
    rw [List.mem_singleton] at h
    subst h; rfl
  · rw [hsel] at h
    dsimp only at h
    rcases hsr : s.searchR (searchQuery b) with e | found
    · rw [hsr] at h
      dsimp only at h
      rcases List.mem_cons.1 h with h | h
      · subst h; rfl
      · rw [List.mem_singleton] at h
        subst h; rfl
    · rw [hsr] at h
      dsimp only at h
      rw [if_pos rfl] at h
      rcases hdl : dryLoop s (ranges (found.insertionSort (· ≤ ·)))
        with ⟨evs, res⟩
      rw [hdl] at h
      have hevs : ∀ x ∈ evs, Ev.isWrite x = false := by
        intro x hx
        have := dryLoop_no_write s (ranges (found.insertionSort (· ≤ ·))) x
        rw [hdl] at this
        exact this hx
      rcases res with e | u
      · dsimp only at h
        rcases List.mem_append.1 h with h | h
        · rcases List.mem_cons.1 h with h | h
          · subst h; rfl
          · rw [List.mem_singleton] at h
            subst h; rfl
        · exact hevs ev h
      · dsimp only at h
        rcases List.mem_append.1 h with h | h
        · rcases List.mem_append.1 h with h | h
          · rcases List.mem_cons.1 h with h | h
            · subst h; rfl
            · rw [List.mem_singleton] at h
              subst h; rfl
          · exact hevs ev h
        · rw [List.mem_singleton] at h
          subst h; rfl

/-- Strictly ascending input gives output ranges with strictly
ascending starts. -/
theorem ranges_starts {l : List Nat} (hs : List.Chain' (· < ·) l) :
    List.Pairwise (fun a b => a.1 < b.1) (ranges l) := by
  have hle : List.Chain' (· ≤ ·) l := hs.imp fun _ _ h => le_of_lt h
  refine (ranges_pairwise hs).imp_of_mem fun {a b} ha _ hab => ?_
  have := ranges_bounds hle a ha
  omega

/-! ### Claim theorems for the cleanup workflow -/

/-- C5: in commit mode, when select, search and every store succeed,
the workflow issues exactly one store command per compressed range, in
the order of the (start-ascending) range list, all of them before the
single expunge, and reports the number of identifiers
(`uids.len()`, which equals the sum of all range sizes). -/
theorem claim5_commit_marks_then_purges {ε : Type} (s : Session ε)
    (mb b : String) (found : List Nat) (hnd : found.Nodup)
    (hsel : s.selectR mb = .ok ())
    (hsearch : s.searchR (searchQuery b) = .ok found)
    (hstore : ∀ r ∈ ranges (found.insertionSort (· ≤ ·)),
      s.storeR (seqset r) delFlags = .ok ())
    (hexp : s.expungeR = .ok ()) :
    cleanup_emails s mb b false =
      ([Ev.select mb, Ev.search (searchQuery b)] ++
        ((ranges (found.insertionSort (· ≤ ·))).map
          fun r => Ev.store (seqset r) delFlags) ++
        [Ev.expunge, Ev.print (commitCountLine found.length)], .ok ()) ∧
    List.Pairwise (fun a b => a.1 < b.1)
      (ranges (found.insertionSort (· ≤ ·))) ∧
    ((ranges (found.insertionSort (· ≤ ·))).map
      (fun r => r.2 + 1 - r.1)).sum = found.length := by
  have hperm : List.Perm (found.insertionSort (· ≤ ·)) found :=
    List.perm_insertionSort _ _
  have hsorted : List.Pairwise (· ≤ ·) (found.insertionSort (· ≤ ·)) :=
    List.sorted_insertionSort _ _
  have hndup : (found.insertionSort (· ≤ ·)).Nodup := hperm.nodup_iff.2 hnd
  have hstrict : List.Pairwise (· < ·) (found.insertionSort (· ≤ ·)) :=
    List.Sorted.lt_of_le hsorted hndup
  have hch : List.Chain' (· < ·) (found.insertionSort (· ≤ ·)) :=
    List.chain'_iff_pairwise.2 hstrict
  have hlen : (found.insertionSort (· ≤ ·)).length = found.length :=
    hperm.length_eq
  refine ⟨?_, ranges_starts hch, ?_⟩
  · rw [cleanup_emails, hsel]
    dsimp only
    rw [hsearch]
    dsimp only
    rw [if_neg Bool.false_ne_true]
    rw [commitLoop_ok s _ hstore]
    dsimp only
    rw [hexp]
    dsimp only
    rw [hlen]
  · rw [ranges_sum hch, hlen]

/-- Concrete session for the C5 witness: search finds `[10, 11, 12]`
and every command succeeds. -/
def sessionC5 : Session Unit where
  selectR := fun _ => .ok ()
  searchR := fun _ => .ok [10, 11, 12]
  fetchR := fun _ _ => .ok []
  storeR := fun _ _ => .ok ()
  expungeR := .ok ()

/-- Witness for C5: with identifiers `[10, 11, 12]` exactly one store of
`10:12` is issued, followed by exactly one expunge, and the reported
count is `3`. -/
theorem claim5_witness :
    ([10, 11, 12] : List Nat).Nodup ∧
    cleanup_emails sessionC5 "INBOX" "1-Jan-2020" false =
      ([Ev.select "INBOX", Ev.search (searchQuery "1-Jan-2020"),
        Ev.store "10:12" delFlags, Ev.expunge,
        Ev.print "3 deleted."], .ok ()) := by
  refine ⟨by decide, ?_⟩
  have h := (claim5_commit_marks_then_purges sessionC5 "INBOX" "1-Jan-2020"
    [10, 11, 12] (by decide) rfl rfl (fun r _ => rfl) rfl).1
  exact h.trans rfl

/-- C6 (amended): in dry-run mode, a failing fetch for a range
aborts the whole run with that fetch error: no later range is fetched
and no candidate count line is printed.  (Preview lines already printed
for earlier, successfully fetched ranges have been emitted and remain —
the original claim that *no* preview record is surfaced is refuted by
`claim6_counterexample`.) -/
theorem claim6_amended_dry_fetch_error_aborts {ε : Type} (s : Session ε)
    (mb b : String) (found : List Nat) (msf : Nat × Nat → List Msg)
    (pre : List (Nat × Nat)) (rf : Nat × Nat) (post : List (Nat × Nat)) (e : ε)
    (hsel : s.selectR mb = .ok ())
    (hsearch : s.searchR (searchQuery b) = .ok found)
    (hsplit : ranges (found.insertionSort (· ≤ ·)) = pre ++ rf :: post)
    (hpre : ∀ r ∈ pre, s.fetchR (seqset r) fetchFields = .ok (msf r))
    (hrf : s.fetchR (seqset rf) fetchFields = .error e) :
    cleanup_emails s mb b true =
      ([Ev.select mb, Ev.search (searchQuery b)] ++
        (previewEvents msf pre ++ [Ev.fetch (seqset rf) fetchFields]),
        .error e) := by
  rw [cleanup_emails, hsel]
  dsimp only
  rw [hsearch]
  dsimp only
  rw [if_pos rfl]
  rw [hsplit, dryLoop_error s msf pre rf post e hpre hrf]

/-- Concrete session for C6: two ranges; the first fetch succeeds with
one message, the second fetch fails. -/
def sessionC6 : Session String where
  selectR := fun _ => .ok ()
  searchR := fun _ => .ok [1, 3]
  fetchR := fun seqSet _ =>
    if seqSet = "1:1" then .ok [⟨"01-Jan-2000", ["Seen"]⟩]
    else .error "fetch failed"
  storeR := fun _ _ => .ok ()
  expungeR := .ok ()

/-- C6, counterexample: with identifiers `[1, 3]`, a successful
fetch of range `1:1` and a failing fetch of range `3:3`, the run aborts
with the fetch error *but* the preview line for the first range's
message has already been emitted — a partial preview is surfaced,
refuting the claim that no preview record for any message exists. -/
theorem claim6_counterexample :
    (cleanup_emails sessionC6 "INBOX" "d" true).2 = .error "fetch failed" ∧
    Ev.print (previewLine ⟨"01-Jan-2000", ["Seen"]⟩) ∈
      (cleanup_emails sessionC6 "INBOX" "d" true).1 := by
  constructor
  · rfl
  · decide

/-- Witness for the amended C6 at the concrete session `sessionC6`. -/
theorem claim6_amended_witness :
    ranges (([1, 3] : List Nat).insertionSort (· ≤ ·)) =
      [(1, 1)] ++ (3, 3) :: [] ∧
    cleanup_emails sessionC6 "INBOX" "d" true =
      ([Ev.select "INBOX", Ev.search (searchQuery "d")] ++
        (previewEvents (fun _ => [⟨"01-Jan-2000", ["Seen"]⟩]) [(1, 1)] ++
          [Ev.fetch (seqset (3, 3)) fetchFields]),
        .error "fetch failed") := by
  refine ⟨by decide, ?_⟩
  exact claim6_amended_dry_fetch_error_aborts sessionC6 "INBOX" "d" [1, 3]
    (fun _ => [⟨"01-Jan-2000", ["Seen"]⟩]) [(1, 1)] (3, 3) [] "fetch failed"
    rfl rfl (by decide)
    (fun r hr => by
      rw [List.mem_singleton] at hr
      subst hr
      rfl)
    rfl

/-- C7: in commit mode, a failing store for a range propagates that
error: the stores already issued for earlier ranges stay issued (no
rollback event exists), no further store is issued, and the expunge
command is never issued. -/
theorem claim7_commit_store_error {ε : Type} (s : Session ε)
    (mb b : String) (found : List Nat)
    (pre : List (Nat × Nat)) (rf : Nat × Nat) (post : List (Nat × Nat)) (e : ε)
    (hsel : s.selectR mb = .ok ())
    (hsearch : s.searchR (searchQuery b) = .ok found)
    (hsplit : ranges (found.insertionSort (· ≤ ·)) = pre ++ rf :: post)
    (hpre : ∀ r ∈ pre, s.storeR (seqset r) delFlags = .ok ())
    (hrf : s.storeR (seqset rf) delFlags = .error e) :
    cleanup_emails s mb b false =
      ([Ev.select mb, Ev.search (searchQuery b)] ++
        ((pre.map fun r => Ev.store (seqset r) delFlags) ++
          [Ev.store (seqset rf) delFlags]), .error e) ∧
    Ev.expunge ∉ (cleanup_emails s mb b false).1 := by
  have heq : cleanup_emails s mb b false =
      ([Ev.select mb, Ev.search (searchQuery b)] ++
        ((pre.map fun r => Ev.store (seqset r) delFlags) ++
          [Ev.store (seqset rf) delFlags]), .error e) := by
    rw [cleanup_emails, hsel]
    dsimp only
    rw [hsearch]
    dsimp only
    rw [if_neg Bool.false_ne_true]
    rw [hsplit, commitLoop_error s pre rf post e hpre hrf]
  refine ⟨heq, ?_⟩
  rw [heq]
  simp

/-- Concrete session for the C7 witness: the store for `1:1` succeeds,
the store for `3:3` fails. -/
def sessionC7 : Session String where
  selectR := fun _ => .ok ()
  searchR := fun _ => .ok [1, 3]
  fetchR := fun _ _ => .ok []
  storeR := fun seqSet _ =>
    if seqSet = "1:1" then .ok () else .error "store failed"
  expungeR := .ok ()

/-- Witness for C7 at the concrete session `sessionC7`. -/
theorem claim7_witness :
    ranges (([1, 3] : List Nat).insertionSort (· ≤ ·)) =
      [(1, 1)] ++ (3, 3) :: [] ∧
    (cleanup_emails sessionC7 "INBOX" "d" false =
      ([Ev.select "INBOX", Ev.search (searchQuery "d")] ++
        (([(1, 1)].map fun r => Ev.store (seqset r) delFlags) ++
          [Ev.store (seqset (3, 3)) delFlags]), .error "store failed") ∧
    Ev.expunge ∉ (cleanup_emails sessionC7 "INBOX" "d" false).1) := by
  refine ⟨by decide, ?_⟩
  exact claim7_commit_store_error sessionC7 "INBOX" "d" [1, 3]
    [(1, 1)] (3, 3) [] "store failed" rfl rfl (by decide)
    (fun r hr => by
      rw [List.mem_singleton] at hr
      subst hr
      rfl)
    rfl

/-- C8: in dry-run mode the workflow only ever issues read
operations — no store and no expunge event occurs for *any* session —
and when select, search and all fetches succeed it reports the total
candidate count `uids.len()` (the number of matching identifiers). -/
theorem claim8_dry_run_read_only {ε : Type} (s : Session ε)
    (mb b : String) (found : List Nat)
    (hsel : s.selectR mb = .ok ())
    (hsearch : s.searchR (searchQuery b) = .ok found)
    (hfetch : (dryLoop s (ranges (found.insertionSort (· ≤ ·)))).2 = .ok ()) :
    (∀ (t : Session ε) (mb' b' : String),
      ∀ ev ∈ (cleanup_emails t mb' b' true).1, ev.isWrite = false) ∧
    cleanup_emails s mb b true =
      ([Ev.select mb, Ev.search (searchQuery b)] ++
        (dryLoop s (ranges (found.insertionSort (· ≤ ·)))).1 ++
        [Ev.print (dryCountLine found.length)], .ok ()) := by
  have hlen : (found.insertionSort (· ≤ ·)).length = found.length :=
    (List.perm_insertionSort _ _).length_eq
  refine ⟨fun t mb' b' => cleanup_dry_no_write t mb' b', ?_⟩
  rw [cleanup_emails, hsel]
  dsimp only
  rw [hsearch]
  dsimp only
  rw [if_pos rfl]
  rcases hdl : dryLoop s (ranges (found.insertionSort (· ≤ ·)))
    with ⟨evs, res⟩
  rw [hdl] at hfetch
  dsimp only at hfetch
  subst hfetch
  dsimp only
  rw [hlen]

/-- Concrete session for the C8 witness: search finds five identifiers
and every fetch succeeds. -/
def sessionC8 : Session Unit where
  selectR := fun _ => .ok ()
  searchR := fun _ => .ok [4, 9, 2, 7, 5]
  fetchR := fun _ _ => .ok []
  storeR := fun _ _ => .ok ()
  expungeR := .ok ()

/-- Witness for C8: five matching identifiers, candidate count 5, no
write event. -/
theorem claim8_witness :
    (dryLoop sessionC8
      (ranges (([4, 9, 2, 7, 5] : List Nat).insertionSort (· ≤ ·)))).2 =
      .ok () ∧
    ((∀ (t : Session Unit) (mb' b' : String),
      ∀ ev ∈ (cleanup_emails t mb' b' true).1, ev.isWrite = false) ∧
    cleanup_emails sessionC8 "INBOX" "d" true =
      ([Ev.select "INBOX", Ev.search (searchQuery "d")] ++
        (dryLoop sessionC8
          (ranges (([4, 9, 2, 7, 5] : List Nat).insertionSort (· ≤ ·)))).1 ++
        [Ev.print (dryCountLine ([4, 9, 2, 7, 5] : List Nat).length)],
        .ok ())) :=
  ⟨rfl, claim8_dry_run_read_only sessionC8 "INBOX" "d" [4, 9, 2, 7, 5]
    rfl rfl rfl⟩

/-- C10: in commit mode with an empty matching identifier set, the
workflow issues zero store commands but still issues exactly one
expunge on the selected mailbox, and reports a count of 0 — the expunge
is not conditional on candidates having been found. -/
theorem claim10_commit_empty_expunges {ε : Type} (s : Session ε)
    (mb b : String)
    (hsel : s.selectR mb = .ok ())
    (hsearch : s.searchR (searchQuery b) = .ok [])
    (hexp : s.expungeR = .ok ()) :
    cleanup_emails s mb b false =
      ([Ev.select mb, Ev.search (searchQuery b), Ev.expunge,
        Ev.print (commitCountLine 0)], .ok ()) := by
  rw [cleanup_emails, hsel]
  dsimp only
  rw [hsearch]
  dsimp only
  rw [if_neg Bool.false_ne_true]
  rw [show commitLoop s (ranges (([] : List Nat).insertionSort (· ≤ ·))) =
    ([], .ok ()) from rfl]
  dsimp only
  rw [hexp]
  rfl

/-- Concrete session for the C10 witness: search finds nothing. -/
def sessionC10 : Session Unit where
  selectR := fun _ => .ok ()
  searchR := fun _ => .ok []
  fetchR := fun _ _ => .ok []
  storeR := fun _ _ => .ok ()
  expungeR := .ok ()

/-- Witness for C10 at the concrete session `sessionC10`. -/
theorem claim10_witness :
    cleanup_emails sessionC10 "INBOX" "d" false =
      ([Ev.select "INBOX", Ev.search (searchQuery "d"), Ev.expunge,
        Ev.print (commitCountLine 0)], .ok ()) :=
  claim10_commit_empty_expunges sessionC10 "INBOX" "d" rfl rfl rfl

end ImapCleanup
